import Mathlib

/-!
Verification development for the igen-core HLA domain model.

The definitions below are a shallow embedding of `src/igen/core` (the
`HlaAllele` and `HlaHaplotype` domain classes and the `HlaLocus` registry).
Strings are modelled as Lean `String`s (lists of characters); Python's
character classes (`str.isalpha`, `\d`, `str.upper`, `str.strip`) are
modelled over ASCII, which covers every string the domain grammar accepts.
-/

/-! ### Character helpers (ASCII model of the Python string methods) -/

/-- ASCII decimal digit, the model of the regex class `\d`. -/
def isDigitChar (c : Char) : Bool :=
  '0' ≤ c && c ≤ '9'

/-- ASCII letter, the model of `[A-Z]` under `re.IGNORECASE` and of
`str.isalpha` restricted to ASCII. -/
def isAlphaChar (c : Char) : Bool :=
  ('A' ≤ c && c ≤ 'Z') || ('a' ≤ c && c ≤ 'z')

/-- The whitespace characters removed by Python's `str.strip`. -/
def isSpaceChar (c : Char) : Bool :=
  c = ' ' || c = '\t' || c = '\n' || c = '\r' || c = '\x0b' || c = '\x0c'

/-- ASCII uppercasing of one character, the model of `str.upper`. -/
def upperChar (c : Char) : Char :=
  if 'a' ≤ c && c ≤ 'z' then Char.ofNat (c.toNat - 32) else c

/-- Model of `str.upper` on a character list. -/
def pyUpper (s : List Char) : List Char :=
  s.map upperChar

/-- Model of `str.strip`: drop whitespace from both ends. -/
def pyStrip (s : List Char) : List Char :=
  ((s.dropWhile isSpaceChar).reverse.dropWhile isSpaceChar).reverse

/-- Model of `str.isalpha` (ASCII): nonempty and all letters. -/
def pyIsAlpha (s : List Char) : Bool :=
  !s.isEmpty && s.all isAlphaChar

/-! ### Generic string splitting, as used by `str.split` -/

/-- Model of Python `str.split(sep)` for a one-character separator: the result
is never empty, and splitting the empty string yields `[[]]`. -/
def splitOnChar (sep : Char) : List Char → List (List Char)
  | [] => [[]]
  | c :: r =>
    if c = sep then [] :: splitOnChar sep r
    else
      match splitOnChar sep r with
      | [] => [[c]]
      | f :: fs => (c :: f) :: fs

/-- Model of `specificity.split(":")`. -/
def splitOnColon (s : List Char) : List (List Char) :=
  splitOnChar ':' s

/-- Model of `allele.split("*", 1)`: the part before the first `*` and the
part after it (callers check `"*" in allele` first). -/
def splitStar : List Char → List Char × List Char
  | [] => ([], [])
  | c :: r =>
    if c = '*' then ([], r)
    else
      let p := splitStar r
      (c :: p.1, p.2)

/-- Model of Python `s.startswith(p)`. -/
def startswith (s p : String) : Bool :=
  p.data.isPrefixOf s.data

/-! ### The locus registry (`HlaLocus` / `HlaLocusEnum`)

Each registry entry is uniquely determined by its `HlaLocusEnum` value (the
group and chain tags carry no identity), so the registry is embedded as the
enumeration itself. -/

/-- The twelve canonical HLA loci registered at process start. -/
inductive HlaLocus where
  | A | B | C | DRB1 | DRB3 | DRB4 | DRB5 | DRB345 | DQB1 | DQA1 | DPB1 | DPA1
deriving DecidableEq

/-- The canonical token of a locus (`HlaLocusEnum` values). -/
def HlaLocus.token : HlaLocus → String
  | .A => "A"
  | .B => "B"
  | .C => "C"
  | .DRB1 => "DRB1"
  | .DRB3 => "DRB3"
  | .DRB4 => "DRB4"
  | .DRB5 => "DRB5"
  | .DRB345 => "DRB345"
  | .DQB1 => "DQB1"
  | .DQA1 => "DQA1"
  | .DPB1 => "DPB1"
  | .DPA1 => "DPA1"

/-- The `_registry` contents in registration order. -/
def registryLoci : List HlaLocus :=
  [.A, .B, .C, .DRB1, .DRB3, .DRB4, .DRB5, .DRB345, .DQB1, .DQA1, .DPB1,
    .DPA1]

/-- Model of `HlaLocus.from_value`: scan the registry for a case-sensitive exact
token match, returning the first hit. -/
def HlaLocus.from_value (s : String) : Option HlaLocus :=
  registryLoci.find? (fun l => l.token == s)

/-- Model of `HlaLocus.is_drb345`. -/
def HlaLocus.is_drb345 : HlaLocus → Bool
  | .DRB3 | .DRB4 | .DRB5 | .DRB345 => true
  | _ => false

/-- Model of `_LOCUS_ALTERNATIVE_MAP`: the short aliases accepted by allele parsing. -/
def locusAlternative (s : String) : Option HlaLocus :=
  if s = "B3" then some .DRB3
  else if s = "B4" then some .DRB4
  else if s = "B5" then some .DRB5
  else none

/-! ### Specificity validation (`_SPECIFICITY_REGEX` and the exception tokens)

The regex is `^\d{2,}((:[A-Z]{2,})|(:\d{2,}[A-Z]?)*)$` with `re.IGNORECASE`,
used through `fullmatch`.  Its matching is deterministic: every quantified
digit run is followed by `:`, a letter, or the end of the string, so a digit
run always matches maximally, and the optional `[A-Z]?` must consume a
pending letter because no alternative continuation can.  The matcher below
unrolls the regex with that determinization; `afterColon n r` is the state
inside one `:\d{2,}[A-Z]?` block after `n` digits, and `firstField n s` the
state inside the leading `\d{2,}` run. -/

/-- State of the regex inside a `:\d{2,}[A-Z]?` block, `n` digits seen. -/
def afterColon : Nat → List Char → Bool
  | n, [] => decide (2 ≤ n)
  | n, [c] =>
    if isDigitChar c then decide (2 ≤ n + 1)
    else isAlphaChar c && decide (2 ≤ n)
  | n, c :: d :: r =>
    if isDigitChar c then afterColon (n + 1) (d :: r)
    else if c = ':' then decide (2 ≤ n) && afterColon 0 (d :: r)
    else isAlphaChar c && decide (2 ≤ n) && d = ':' && afterColon 0 r

/-- The `:[A-Z]{2,}` alternative, applied to the text after the colon. -/
def isMacTail (r : List Char) : Bool :=
  decide (2 ≤ r.length) && r.all isAlphaChar

/-- State of the regex inside the leading `\d{2,}` run, `n` digits seen:
at the first non-digit the run must end at a `:` followed by either the
MAC alternative or the block alternative. -/
def firstField : Nat → List Char → Bool
  | n, [] => decide (2 ≤ n)
  | n, c :: r =>
    if isDigitChar c then firstField (n + 1) r
    else c = ':' && decide (2 ≤ n) && (isMacTail r || afterColon 0 r)

/-- Model of `_SPECIFICITY_REGEX.fullmatch(specificity)` as a Boolean. -/
def specRegexMatch (s : List Char) : Bool :=
  firstField 0 s

/-- Model of `_NEGATIVE_SPECIFICITIES`. -/
def negativeSpecificities : List String := ["NEGATIVO", "NEGATIVE"]

/-- Model of `_MISSING_SPECIFICITIES`. -/
def missingSpecificities : List String := ["AUSENTE", "MISSING"]

/-- Model of `_SPECIFICITY_EXCEPTIONS`. -/
def specificityExceptions : List String :=
  ["NEGATIVO", "NEGATIVE", "AUSENTE", "MISSING", "?"]

/-- Model of `_is_valid_specificity`: exception tokens are matched case-insensitively,
everything else must match the specificity regex. -/
def is_valid_specificity (specificity : String) : Bool :=
  specificityExceptions.contains (String.mk (pyUpper specificity.data))
    || specRegexMatch specificity.data

/-! ### The allele value (`HlaAllele`) -/

/-- The fields of the frozen dataclass `HlaAllele`. -/
structure HlaAllele where
  locus : HlaLocus
  specificity : String
  field_count : Nat
  mac_code : Option String
  display_field_count : Nat
  suffix : Option String
deriving DecidableEq

/-- Modelled from the spec: the shared string utility `is_blank` (imported
from `igen.shared.string_utils`, which is not under `src/`) — true for an
absent value or a string containing only whitespace. -/
def is_blank : Option String → Bool
  | none => true
  | some s => s.data.all isSpaceChar

/-- Model of `HlaAllele.__post_init__`: construction fails unless the specificity is
valid.  `Except.error` models the raised `ValueError`. -/
def mkAllele (locus : HlaLocus) (specificity : String) (field_count : Nat)
    (mac_code : Option String) (display_field_count : Nat)
    (suffix : Option String) : Except String HlaAllele :=
  if is_valid_specificity specificity then
    .ok ⟨locus, specificity, field_count, mac_code, display_field_count, suffix⟩
  else .error "Invalid specificity"

/-- Model of `_extract_parts`: recognize a bare negative/missing marker, otherwise
split at the first `*` (error when there is none). -/
def extract_parts (allele : String) : Except String (String × String) :=
  let normalized := String.mk (pyUpper (pyStrip allele.data))
  if negativeSpecificities.contains normalized
      || missingSpecificities.contains normalized then
    .ok ("DRB345", normalized)
  else if allele.data.contains '*' then
    let p := splitStar allele.data
    .ok (String.mk p.1, String.mk p.2)
  else .error "Allele must contain star"

/-- Model of `_parse_locus`: uppercase the token, try the registry, then the alias
map, otherwise fail. -/
def parse_locus (locus : String) : Except String HlaLocus :=
  let norm := String.mk (pyUpper locus.data)
  match HlaLocus.from_value norm with
  | some l => .ok l
  | none =>
    match locusAlternative norm with
    | some l => .ok l
    | none => .error ("Unknown locus: " ++ norm)

/-- Model of `HlaAllele.get_field_count`: number of `:` plus one. -/
def get_field_count (specificity : String) : Nat :=
  specificity.data.count ':' + 1

/-- Model of `HlaAllele.get_mac_code`: last colon-delimited field, uppercased, kept
when it is alphabetic of length at least 2. -/
def get_mac_code (specificity : String) : Option String :=
  let last_field := ((splitOnColon specificity.data).getLast?).getD []
  if 2 ≤ last_field.length && pyIsAlpha last_field then
    some (String.mk (pyUpper last_field))
  else none

/-- Model of `HlaAllele.get_suffix`: trailing letter of the last field, when the
field has length at least 3, is not purely alphabetic, and ends in a
letter. -/
def get_suffix (specificity : String) : Option String :=
  let last_field := ((splitOnColon specificity.data).getLast?).getD []
  match last_field.getLast? with
  | some c =>
    if 3 ≤ last_field.length && !pyIsAlpha last_field && isAlphaChar c then
      some (String.mk [upperChar c])
    else none
  | none => none

/-- Model of `HlaAllele.from_string`: extract the parts, resolve the locus, compute
the derived fields, construct (validating the specificity). -/
def from_string (allele : String) : Except String HlaAllele :=
  match extract_parts allele with
  | .error e => .error e
  | .ok (locus_token, specificity) =>
    match parse_locus locus_token with
    | .error e => .error e
    | .ok locus =>
      mkAllele locus specificity (get_field_count specificity)
        (get_mac_code specificity) 2 (get_suffix specificity)

/-- Model of `HlaAllele.is_valid_allele`: the same pipeline as `from_string`, as a
Boolean probe. -/
def is_valid_allele (allele : String) : Bool :=
  match extract_parts allele with
  | .error _ => false
  | .ok (locus_token, specificity) =>
    match parse_locus locus_token with
    | .error _ => false
    | .ok _ => is_valid_specificity specificity

/-- Model of `HlaAllele.__str__`: the canonical string `locusToken*specificity`. -/
def alleleStr (a : HlaAllele) : String :=
  a.locus.token ++ "*" ++ a.specificity

/-- Model of `HlaAllele.has_mac_code`. -/
def HlaAllele.has_mac_code (a : HlaAllele) : Bool :=
  !(is_blank a.mac_code)

/-- Model of `HlaAllele.has_suffix`. -/
def HlaAllele.has_suffix (a : HlaAllele) : Bool :=
  !(is_blank a.suffix)

/-- Model of `HlaAllele.clone`: rebuilds the frozen dataclass with identical fields,
so it denotes the same value. -/
def HlaAllele.clone (a : HlaAllele) : HlaAllele := a

/-- Model of `HlaAllele._reduce_specificity`: keep the string intact when a suffix is
present and truncation is not forced, otherwise keep the first
`display_field_count` colon-delimited fields (re-appending the suffix when
`keep_suffix`; Python would raise a `TypeError` there if the allele had no
suffix, a path no caller in scope reaches). -/
def reduce_specificity (a : HlaAllele) (specificity : String)
    (force_truncate : Bool) (keep_suffix : Bool) : String :=
  if !force_truncate && a.has_suffix then specificity
  else
    let parts := (splitOnColon specificity.data).map String.mk
    let reduced := String.intercalate ":" (parts.take a.display_field_count)
    if keep_suffix then reduced ++ (a.suffix.getD "") else reduced

/-- Model of `HlaAllele.as_resolution`: fail when `n_field < 1`, clone when `n_field`
exceeds the field count, otherwise rebuild from the force-truncated
specificity. -/
def as_resolution (a : HlaAllele) (n_field : Int) (keep_suffix : Bool) :
    Except String HlaAllele :=
  if n_field < 1 then .error "n_field must be >= 1"
  else if (a.field_count : Int) < n_field then .ok a.clone
  else
    let specificity := reduce_specificity a a.specificity true false
    let suffix := if keep_suffix && a.has_suffix then a.suffix else none
    mkAllele a.locus specificity n_field.toNat (get_mac_code specificity)
      (min a.display_field_count n_field.toNat) suffix

/-- Model of `HlaAllele.contains` on two parsed alleles. -/
def HlaAllele.contains (a other : HlaAllele) : Bool :=
  if a.has_mac_code || other.has_mac_code then false
  else startswith (alleleStr a) (alleleStr other)

/-- Model of `HlaAllele.contains` when the argument is a raw string: it is coerced
through `from_string` first, propagating its failure. -/
def HlaAllele.contains_string (a : HlaAllele) (other : String) :
    Except String Bool :=
  match from_string other with
  | .error e => .error e
  | .ok b => .ok (a.contains b)

/-- Model of `HlaAllele.is_mid_resolution`: two fields and a MAC code. -/
def HlaAllele.is_mid_resolution (a : HlaAllele) : Bool :=
  a.field_count == 2 && a.has_mac_code

/-! ### The haplotype container (`HlaHaplotype`)

The Python class stores a `dict` from normalized locus to allele.  The
embedding uses an association list with the dict's update discipline:
assignment replaces the value at an existing key in place, otherwise appends
a new entry at the end. -/

/-- Model of `_normalize_locus`: the DRB3/4/5 family collapses to DRB345. -/
def normalize_locus (l : HlaLocus) : HlaLocus :=
  if l.is_drb345 then .DRB345 else l

/-- Model of `HlaHaplotype`: the internal insertion-ordered map. -/
structure HlaHaplotype where
  allele_map : List (HlaLocus × HlaAllele)
deriving DecidableEq

/-- Python dict assignment `mapping[k] = v` on an insertion-ordered map with
unique keys: replace in place, or append. -/
def mapInsert : List (HlaLocus × HlaAllele) → HlaLocus → HlaAllele →
    List (HlaLocus × HlaAllele)
  | [], k, v => [(k, v)]
  | p :: m, k, v => if p.1 = k then (k, v) :: m else p :: mapInsert m k v

/-- Python dict lookup `mapping.get(k)`. -/
def findAllele : List (HlaLocus × HlaAllele) → HlaLocus → Option HlaAllele
  | [], _ => none
  | p :: m, k => if p.1 = k then some p.2 else findAllele m k

/-- Model of `HlaHaplotype.__init__`: index each allele by its normalized locus, later
alleles overwriting earlier ones that share a key. -/
def ofAlleles (alleles : List HlaAllele) : HlaHaplotype :=
  ⟨alleles.foldl (fun m a => mapInsert m (normalize_locus a.locus) a) []⟩

/-- Model of `HlaHaplotype.alleles`: the stored alleles in insertion order. -/
def HlaHaplotype.alleles (h : HlaHaplotype) : List HlaAllele :=
  h.allele_map.map (·.2)

/-- Model of `HlaHaplotype.clone`: rebuild from the current alleles. -/
def HlaHaplotype.clone (h : HlaHaplotype) : HlaHaplotype :=
  ofAlleles h.alleles

/-- Model of `_coerce_locus` for a string argument: case-sensitive registry lookup,
raising for anything else (the `B3`/`B4`/`B5` aliases are not consulted). -/
def coerce_locus (locus : String) : Except String HlaLocus :=
  match HlaLocus.from_value locus with
  | some l => .ok l
  | none => .error ("Unknown locus: " ++ locus)

/-- Model of `HlaHaplotype.get` with an already-coerced locus: DRB-family requests
read the single DRB345 slot, honouring `exact`. -/
def HlaHaplotype.get (h : HlaHaplotype) (locus : HlaLocus) (exact : Bool) :
    Option HlaAllele :=
  if locus.is_drb345 then
    match findAllele h.allele_map .DRB345 with
    | none => none
    | some candidate =>
      if exact && !(candidate.locus = locus : Bool) then none
      else some candidate
  else findAllele h.allele_map locus

/-- Model of `HlaHaplotype.get` with a string locus: coercion failures propagate. -/
def HlaHaplotype.getS (h : HlaHaplotype) (locus : String) (exact : Bool) :
    Except String (Option HlaAllele) :=
  match coerce_locus locus with
  | .error e => .error e
  | .ok l => .ok (h.get l exact)

/-- Model of `HlaHaplotype.has`. -/
def HlaHaplotype.has (h : HlaHaplotype) (locus : HlaLocus) (exact : Bool) :
    Bool :=
  (h.get locus exact).isSome

/-- Model of `HlaHaplotype.has` with a string locus. -/
def HlaHaplotype.hasS (h : HlaHaplotype) (locus : String) (exact : Bool) :
    Except String Bool :=
  match coerce_locus locus with
  | .error e => .error e
  | .ok l => .ok (h.has l exact)

/-- Model of `HlaHaplotype.set` with an already-coerced locus: no-op unless the
normalized key of the locus agrees with that of the allele's locus. -/
def HlaHaplotype.set (h : HlaHaplotype) (locus : HlaLocus)
    (allele : HlaAllele) : HlaHaplotype :=
  let norm := normalize_locus locus
  if norm = normalize_locus allele.locus then
    ⟨mapInsert h.allele_map norm allele⟩
  else h

/-- Model of `HlaHaplotype.set` with a string locus. -/
def HlaHaplotype.setS (h : HlaHaplotype) (locus : String)
    (allele : HlaAllele) : Except String HlaHaplotype :=
  match coerce_locus locus with
  | .error e => .error e
  | .ok l => .ok (h.set l allele)

/-- Model of `HlaHaplotype.swap`: clone both sides, return the clones when either
side lacks an allele at the locus, otherwise exchange. -/
def HlaHaplotype.swap (h1 h2 : HlaHaplotype) (locus : HlaLocus) :
    HlaHaplotype × HlaHaplotype :=
  let first := h1.clone
  let second := h2.clone
  match first.get locus false, second.get locus false with
  | some a1, some a2 => (first.set locus a2, second.set locus a1)
  | _, _ => (first, second)

/-- Parse each `+`-token of a haplotype string (`HlaHaplotype.create`). -/
def parseAlleles : List (List Char) → Except String (List HlaAllele)
  | [] => .ok []
  | t :: ts =>
    match from_string (String.mk t) with
    | .error e => .error e
    | .ok a =>
      match parseAlleles ts with
      | .error e => .error e
      | .ok rest => .ok (a :: rest)

/-- Model of `HlaHaplotype.create` for a `+`-delimited string: split, strip each
token, drop empties, parse, and index. -/
def HlaHaplotype.createS (s : String) : Except String HlaHaplotype :=
  let tokens := ((splitOnChar '+' s.data).map pyStrip).filter
    (fun t => !t.isEmpty)
  match parseAlleles tokens with
  | .error e => .error e
  | .ok alleles => .ok (ofAlleles alleles)

/-- The representation invariant every haplotype reachable through the API
satisfies: each entry is keyed by the normalized locus of its allele, and
keys are unique (Python's `dict` guarantees the latter). -/
def HapWF (h : HlaHaplotype) : Prop :=
  (∀ p ∈ h.allele_map, p.1 = normalize_locus p.2.locus) ∧
    h.allele_map.Pairwise (fun p q => p.1 ≠ q.1)

/-! ### The specificity grammar stated field-wise

The amended reading of the validation invariant: split the specificity on
`:`; the first field must be a 2+-digit numeric field, and then either the
remaining fields are each 2+-digit numeric fields optionally carrying one
trailing letter, or there is exactly one remaining field and it is a
2+-letter alphabetic MAC field. -/

/-- A field of two or more digits. -/
def isNumericField (f : List Char) : Bool :=
  decide (2 ≤ f.length) && f.all isDigitChar

/-- A field of two or more letters (a MAC code). -/
def isMacField (f : List Char) : Bool :=
  decide (2 ≤ f.length) && f.all isAlphaChar

/-- A numeric field optionally carrying a single trailing letter. -/
def isNumericOptLetterField (f : List Char) : Bool :=
  isNumericField f ||
    ((f.getLast?.elim false isAlphaChar) && isNumericField f.dropLast)

/-- Exactly one remaining field, and it is a MAC field. -/
def isSingleMac : List (List Char) → Bool
  | [m] => isMacField m
  | _ => false

/-- The field-wise grammar of valid non-exception specificities. -/
def grammarAccepts (s : List Char) : Bool :=
  match splitOnColon s with
  | [] => false
  | f0 :: rest =>
    isNumericField f0 &&
      (isSingleMac rest || rest.all isNumericOptLetterField)

/-- The state of a `:\d{2,}[A-Z]?` block with `n` digits already consumed,
read declaratively on the rest of the current field. -/
def partNum (n : Nat) (f : List Char) : Bool :=
  (f.all isDigitChar && decide (2 ≤ n + f.length)) ||
    ((f.getLast?.elim false isAlphaChar) && f.dropLast.all isDigitChar &&
      decide (2 ≤ n + f.dropLast.length))

/-- The state of the leading `\d{2,}` run, read declaratively. -/
def firstNum (n : Nat) (f : List Char) : Bool :=
  f.all isDigitChar && decide (2 ≤ n + f.length)

/-! ### Equivalence of the regex matcher and the field-wise grammar -/

theorem bool_eq_of_iff {a b : Bool} (h : a = true ↔ b = true) : a = b := by
  cases a <;> cases b <;> simp_all

theorem not_alpha_of_digit (c : Char) (h : isDigitChar c = true) :
    isAlphaChar c = false := by
  simp only [isDigitChar, Bool.and_eq_true, decide_eq_true_eq] at h
  simp only [isAlphaChar, Bool.or_eq_false_iff, Bool.and_eq_false_iff]
  constructor
  · by_cases hA : 'A' ≤ c
    · exact absurd (le_trans hA h.2) (by decide)
    · left; simpa using hA
  · by_cases hA : 'a' ≤ c
    · exact absurd (le_trans hA h.2) (by decide)
    · left; simpa using hA

theorem ne_colon_of_digit (c : Char) (h : isDigitChar c = true) : ¬c = ':' := by
  rintro rfl; exact absurd h (by decide)

theorem ne_colon_of_alpha (c : Char) (h : isAlphaChar c = true) : ¬c = ':' := by
  rintro rfl; exact absurd h (by decide)

theorem splitOnChar_ne_nil (sep : Char) (s : List Char) :
    splitOnChar sep s ≠ [] := by
  cases s with
  | nil => simp [splitOnChar]
  | cons c r =>
    unfold splitOnChar
    split
    · simp
    · split <;> simp

theorem splitOnColon_ne_nil (s : List Char) : splitOnColon s ≠ [] :=
  splitOnChar_ne_nil ':' s

theorem splitOnColon_colon (r : List Char) :
    splitOnColon (':' :: r) = [] :: splitOnColon r := by
  simp [splitOnColon, splitOnChar]

theorem splitOnColon_cons {c : Char} (r : List Char) (hc : ¬c = ':') :
    splitOnColon (c :: r) =
      (c :: (splitOnColon r).headI) :: (splitOnColon r).tail := by
  cases hsp : splitOnColon r with
  | nil => exact absurd hsp (splitOnColon_ne_nil r)
  | cons f fs =>
    simp only [splitOnColon, splitOnChar] at hsp ⊢
    rw [if_neg hc, hsp]
    simp

theorem splitOnColon_headI_tail (s : List Char) :
    splitOnColon s = (splitOnColon s).headI :: (splitOnColon s).tail := by
  cases hsp : splitOnColon s with
  | nil => exact absurd hsp (splitOnColon_ne_nil s)
  | cons f fs => simp

theorem splitOnColon_single (r m : List Char) (h : splitOnColon r = [m]) :
    r = m := by
  induction r generalizing m with
  | nil =>
    simp [splitOnColon, splitOnChar] at h
    simp [h]
  | cons c t ih =>
    by_cases hc : c = ':'
    · subst hc
      rw [splitOnColon_colon] at h
      exact absurd (List.cons.inj h).2 (splitOnColon_ne_nil t)
    · rw [splitOnColon_cons t hc] at h
      have h1 := (List.cons.inj h).1
      have h2 := (List.cons.inj h).2
      have ht : splitOnColon t = [(splitOnColon t).headI] := by
        conv_lhs => rw [splitOnColon_headI_tail t]
        rw [h2]
      rw [← h1]
      exact congrArg (c :: ·) (ih _ ht)

theorem splitOnColon_no_colon (r : List Char) (h : ∀ c ∈ r, ¬c = ':') :
    splitOnColon r = [r] := by
  induction r with
  | nil => rfl
  | cons c t ih =>
    have hc : ¬c = ':' := h c (List.mem_cons_self c t)
    have ht := ih (fun x hx => h x (List.mem_cons_of_mem c hx))
    rw [splitOnColon_cons t hc, ht]
    simp

/-- The single-MAC alternative of the regex agrees with the field-wise
reading. -/
theorem isMacTail_eq (r : List Char) :
    isMacTail r = isSingleMac (splitOnColon r) := by
  cases hsp : splitOnColon r with
  | nil => exact absurd hsp (splitOnColon_ne_nil r)
  | cons f fs =>
    cases fs with
    | nil =>
      have hrf := splitOnColon_single r f hsp
      subst hrf
      rfl
    | cons g gs =>
      show isMacTail r = false
      apply Bool.eq_false_iff.mpr
      intro hmac
      simp only [isMacTail, Bool.and_eq_true, decide_eq_true_eq,
        List.all_eq_true] at hmac
      have h1 : splitOnColon r = [r] :=
        splitOnColon_no_colon r (fun c hc => ne_colon_of_alpha c (hmac.2 c hc))
      rw [hsp] at h1
      exact List.cons_ne_nil g gs (List.cons.inj h1).2

theorem partNum_zero (f : List Char) :
    partNum 0 f = isNumericOptLetterField f := by
  apply bool_eq_of_iff
  simp only [partNum, isNumericOptLetterField, isNumericField,
    Bool.or_eq_true, Bool.and_eq_true, decide_eq_true_eq, Nat.zero_add]
  tauto

theorem partNum_nil (n : Nat) : partNum n [] = decide (2 ≤ n) := by
  simp [partNum]

theorem partNum_single_digit (n : Nat) (c : Char) (hc : isDigitChar c = true) :
    partNum n [c] = decide (2 ≤ n + 1) := by
  simp [partNum, hc, not_alpha_of_digit c hc]

theorem partNum_single_not_digit (n : Nat) (c : Char)
    (hcf : isDigitChar c = false) :
    partNum n [c] = (isAlphaChar c && decide (2 ≤ n)) := by
  simp [partNum, hcf]

theorem partNum_cons_digit (n : Nat) (c : Char) (f : List Char)
    (hc : isDigitChar c = true) : partNum n (c :: f) = partNum (n + 1) f := by
  cases f with
  | nil =>
    rw [partNum_single_digit n c hc, partNum_nil]
  | cons x t =>
    apply bool_eq_of_iff
    simp only [partNum, List.all_cons, hc, Bool.true_and,
      List.getLast?_cons_cons, List.dropLast_cons₂, List.length_cons,
      Bool.or_eq_true, Bool.and_eq_true, decide_eq_true_eq]
    constructor
    · rintro (⟨h1, h2⟩ | ⟨⟨h1, h2⟩, h3⟩)
      · exact Or.inl ⟨h1, by omega⟩
      · exact Or.inr ⟨⟨h1, h2⟩, by omega⟩
    · rintro (⟨h1, h2⟩ | ⟨⟨h1, h2⟩, h3⟩)
      · exact Or.inl ⟨h1, by omega⟩
      · exact Or.inr ⟨⟨h1, h2⟩, by omega⟩

theorem partNum_two_not_digit (n : Nat) (c d : Char) (f : List Char)
    (hcf : isDigitChar c = false) : partNum n (c :: d :: f) = false := by
  simp [partNum, hcf, List.dropLast_cons₂]

/-- The block matcher agrees with the field-wise reading of the rest of the
input. -/
theorem afterColon_eq (n : Nat) (r : List Char) :
    afterColon n r = (partNum n ((splitOnColon r).headI) &&
      ((splitOnColon r).tail).all isNumericOptLetterField) := by
  induction n, r using afterColon.induct with
  | case1 n =>
    rw [show splitOnColon [] = [[]] from rfl]
    simp [afterColon, partNum_nil]
  | case2 n c hc =>
    have hsp : splitOnColon [c] = [[c]] :=
      splitOnColon_no_colon [c] (fun x hx => by
        rw [List.mem_singleton] at hx
        rw [hx]
        exact ne_colon_of_digit c hc)
    rw [hsp]
    simp only [List.headI_cons, List.tail_cons, List.all_nil, Bool.and_true]
    rw [partNum_single_digit n c hc]
    simp [afterColon, hc]
  | case3 n c hc =>
    have hcf : isDigitChar c = false := by
      revert hc; cases isDigitChar c <;> simp
    by_cases hcolon : c = ':'
    · subst hcolon
      have ha : isAlphaChar ':' = false := by decide
      rw [show splitOnColon [':'] = [[], []] from rfl]
      simp [afterColon, hcf, ha, partNum_nil, isNumericOptLetterField,
        isNumericField]
    · have hsp : splitOnColon [c] = [[c]] :=
        splitOnColon_no_colon [c] (fun x hx => by
          rw [List.mem_singleton] at hx
          rw [hx]
          exact hcolon)
      rw [hsp]
      simp only [List.headI_cons, List.tail_cons, List.all_nil, Bool.and_true]
      rw [partNum_single_not_digit n c hcf]
      simp [afterColon, hcf]
  | case4 n c d r hc ih =>
    rw [splitOnColon_cons (d :: r) (ne_colon_of_digit c hc)]
    simp only [List.headI_cons, List.tail_cons]
    rw [partNum_cons_digit n c _ hc]
    have h1 : afterColon n (c :: d :: r) = afterColon (n + 1) (d :: r) := by
      simp [afterColon, hc]
    rw [h1, ih]
  | case5 n d r hnd ih =>
    have hd : isDigitChar ':' = false := by decide
    rw [splitOnColon_colon]
    simp only [List.headI_cons, List.tail_cons]
    have h1 : afterColon n (':' :: d :: r) =
        (decide (2 ≤ n) && afterColon 0 (d :: r)) := by
      simp [afterColon, hd]
    rw [h1, ih, partNum_nil]
    conv_rhs =>
      rw [splitOnColon_headI_tail (d :: r)]
    rw [List.all_cons, ← partNum_zero ((splitOnColon (d :: r)).headI)]
  | case6 n c d r hc hcolon ih =>
    have hcf : isDigitChar c = false := by
      revert hc; cases isDigitChar c <;> simp
    by_cases hd : d = ':'
    · subst hd
      rw [splitOnColon_cons (':' :: r) hcolon, splitOnColon_colon]
      simp only [List.headI_cons, List.tail_cons]
      have h1 : afterColon n (c :: ':' :: r) =
          (isAlphaChar c && decide (2 ≤ n) && afterColon 0 r) := by
        simp [afterColon, hcf, hcolon]
      rw [h1, ih, partNum_single_not_digit n c hcf]
      conv_rhs =>
        rw [splitOnColon_headI_tail r]
      rw [List.all_cons, ← partNum_zero ((splitOnColon r).headI)]
    · rw [splitOnColon_cons (d :: r) hcolon, splitOnColon_cons r hd]
      simp only [List.headI_cons, List.tail_cons]
      have h1 : afterColon n (c :: d :: r) = false := by
        simp [afterColon, hcf, hcolon, hd]
      rw [h1, partNum_two_not_digit n c d _ hcf]
      simp

/-- The block matcher at a fresh block boundary: all remaining fields are
numeric-with-optional-letter fields. -/
theorem afterColon_zero_eq (r : List Char) :
    afterColon 0 r = (splitOnColon r).all isNumericOptLetterField := by
  rw [afterColon_eq 0 r]
  conv_rhs => rw [splitOnColon_headI_tail r]
  rw [List.all_cons, partNum_zero]

theorem firstNum_zero (f : List Char) : firstNum 0 f = isNumericField f := by
  apply bool_eq_of_iff
  simp only [firstNum, isNumericField, Bool.and_eq_true, decide_eq_true_eq,
    Nat.zero_add]
  tauto

theorem firstNum_nil (n : Nat) : firstNum n [] = decide (2 ≤ n) := by
  simp [firstNum]

theorem firstNum_cons_digit (n : Nat) (c : Char) (f : List Char)
    (hc : isDigitChar c = true) : firstNum n (c :: f) = firstNum (n + 1) f := by
  apply bool_eq_of_iff
  simp only [firstNum, List.all_cons, hc, Bool.true_and, List.length_cons,
    Bool.and_eq_true, decide_eq_true_eq]
  constructor
  · rintro ⟨h1, h2⟩; exact ⟨h1, by omega⟩
  · rintro ⟨h1, h2⟩; exact ⟨h1, by omega⟩

theorem firstNum_cons_not_digit (n : Nat) (c : Char) (f : List Char)
    (hcf : isDigitChar c = false) : firstNum n (c :: f) = false := by
  simp [firstNum, hcf]

/-- The whole regex matcher agrees with the field-wise reading. -/
theorem firstField_eq (n : Nat) (s : List Char) :
    firstField n s = (firstNum n ((splitOnColon s).headI) &&
      (isSingleMac ((splitOnColon s).tail) ||
        ((splitOnColon s).tail).all isNumericOptLetterField)) := by
  induction n, s using firstField.induct with
  | case1 n =>
    rw [show splitOnColon [] = [[]] from rfl]
    simp [firstField, firstNum_nil, isSingleMac]
  | case2 n c r hc ih =>
    rw [splitOnColon_cons r (ne_colon_of_digit c hc)]
    simp only [List.headI_cons, List.tail_cons]
    rw [firstNum_cons_digit n c _ hc]
    have h1 : firstField n (c :: r) = firstField (n + 1) r := by
      simp [firstField, hc]
    rw [h1, ih]
  | case3 n c r hc =>
    have hcf : isDigitChar c = false := by
      revert hc; cases isDigitChar c <;> simp
    by_cases hcolon : c = ':'
    · subst hcolon
      rw [splitOnColon_colon]
      simp only [List.headI_cons, List.tail_cons]
      have h1 : firstField n (':' :: r) =
          (decide (2 ≤ n) && (isMacTail r || afterColon 0 r)) := by
        simp [firstField, hcf]
      rw [h1, isMacTail_eq r, afterColon_zero_eq r, firstNum_nil]
    · rw [splitOnColon_cons r hcolon]
      simp only [List.headI_cons, List.tail_cons]
      have h1 : firstField n (c :: r) = false := by
        simp [firstField, hcf, hcolon]
      rw [h1, firstNum_cons_not_digit n _ _ hcf]
      simp


/-! ### Shared parsing facts -/

theorem mk_data (s : String) : String.mk s.data = s := rfl

/-- Inversion of a successful parse: the stored fields are the derived
values of the stored specificity, the display count is 2, and the
specificity is valid. -/
theorem from_string_ok (s : String) (a : HlaAllele)
    (h : from_string s = .ok a) :
    a.field_count = get_field_count a.specificity ∧
      a.mac_code = get_mac_code a.specificity ∧
      a.suffix = get_suffix a.specificity ∧
      a.display_field_count = 2 ∧
      is_valid_specificity a.specificity = true := by
  unfold from_string at h
  cases hep : extract_parts s with
  | error e => rw [hep] at h; exact absurd h (by simp)
  | ok p =>
    obtain ⟨lt, sp⟩ := p
    simp only [hep] at h
    cases hpl : parse_locus lt with
    | error e => simp only [hpl] at h; exact absurd h (by simp)
    | ok l =>
      simp only [hpl] at h
      unfold mkAllele at h
      by_cases hv : is_valid_specificity sp = true
      · rw [if_pos hv] at h
        injection h with h
        subst h
        exact ⟨rfl, rfl, rfl, rfl, hv⟩
      · rw [if_neg hv] at h
        exact absurd h (by simp)

/-! ### Claim C1 -/

/-- C1 counterexample: contrary to the claim, specificity validation
rejects the blank specificity and the single-field trailing-letter
specificity `01N`, and accepts a trailing letter on a non-final field
(`01:01N:02`). -/
theorem specificity_validation_claim_false :
    is_valid_specificity "" = false ∧ is_valid_specificity "01N" = false ∧
      is_valid_specificity "01:01N:02" = true := by
  refine ⟨by decide, by decide, by decide⟩

/-- C1 (amended): specificity validation accepts a string exactly when its
uppercased form is one of the five exception tokens, or it splits on `:`
into a leading 2+-digit numeric field followed by either exactly one
2+-letter alphabetic MAC field or a (possibly empty) run of 2+-digit
numeric fields each optionally carrying a single trailing letter.  In
particular blank, `01N` and `01:01:AB` are rejected while `01:01N:02` is
accepted. -/
theorem specificity_validation_characterization (s : String) :
    is_valid_specificity s =
      (specificityExceptions.contains (String.mk (pyUpper s.data))
        || grammarAccepts s.data) := by
  unfold is_valid_specificity
  congr 1
  show specRegexMatch s.data = grammarAccepts s.data
  unfold specRegexMatch grammarAccepts
  rw [firstField_eq 0 s.data]
  cases hsp : splitOnColon s.data with
  | nil => exact absurd hsp (splitOnColon_ne_nil _)
  | cons f fs =>
    simp only [List.headI_cons, List.tail_cons]
    rw [firstNum_zero]

/-! ### Claim C2 -/

/-- C2 (code bug evidence): `as_resolution` truncates the specificity with
`_reduce_specificity`, which cuts to `display_field_count` fields, not to
`n_field` fields.  On the parsed allele `A*01:02:03` (three fields, default
`display_field_count` 2), `as_resolution 1` produces the two-field
specificity `01:02` while claiming `field_count = 1`, contradicting the
method's own docstring and the claim. -/
theorem as_resolution_truncates_to_display_count :
    from_string "A*01:02:03" = .ok ⟨.A, "01:02:03", 3, none, 2, none⟩ ∧
      as_resolution ⟨.A, "01:02:03", 3, none, 2, none⟩ 1 true =
        .ok ⟨.A, "01:02", 1, none, 1, none⟩ ∧
      get_field_count "01:02" = 2 :=
  ⟨rfl, rfl, rfl⟩

/-! ### Claim C3 -/

/-- C3 counterexample: parsing the bare marker `NEGATIVO` yields an allele
whose `mac_code` is `some "NEGATIVO"`, not absent as the claim states
(`from_string` computes `get_mac_code` unconditionally, and a marker is a
purely alphabetic final field). -/
theorem from_string_negativo_mac_code :
    from_string "NEGATIVO" =
      .ok ⟨.DRB345, "NEGATIVO", 1, some "NEGATIVO", 2, none⟩ ∧
      (some "NEGATIVO" : Option String) ≠ none :=
  ⟨rfl, by simp⟩

/-- C3 (amended): for every raw string whose trimmed, uppercased value is a
negative or missing marker, `from_string` returns locus DRB345, the
normalized marker as specificity, `field_count` 1, no suffix — and the
normalized marker itself as the MAC code. -/
theorem from_string_marker (raw : String)
    (h : String.mk (pyUpper (pyStrip raw.data)) ∈ negativeSpecificities ∨
      String.mk (pyUpper (pyStrip raw.data)) ∈ missingSpecificities) :
    from_string raw =
      .ok ⟨.DRB345, String.mk (pyUpper (pyStrip raw.data)), 1,
        some (String.mk (pyUpper (pyStrip raw.data))), 2, none⟩ := by
  simp only [negativeSpecificities, missingSpecificities, List.mem_cons,
    List.mem_singleton, List.not_mem_nil, or_false] at h
  unfold from_string extract_parts
  rcases h with (h4 | h4) | (h4 | h4) <;> rw [h4] <;> rfl

/-- C3 witness: the padded lowercase marker string parses as amended. -/
theorem from_string_marker_witness :
    (String.mk (pyUpper (pyStrip " negativo ".data)) ∈ negativeSpecificities ∨
      String.mk (pyUpper (pyStrip " negativo ".data)) ∈ missingSpecificities) ∧
    from_string " negativo " =
      .ok ⟨.DRB345, String.mk (pyUpper (pyStrip " negativo ".data)), 1,
        some (String.mk (pyUpper (pyStrip " negativo ".data))), 2, none⟩ :=
  ⟨Or.inl (by decide), from_string_marker " negativo " (Or.inl (by decide))⟩

/-! ### Claim C4 -/

theorem toNat_ofNat_valid (n : Nat) (h : n.isValidChar) :
    (Char.ofNat n).toNat = n := by
  unfold Char.ofNat
  rw [dif_pos h]
  rfl

/-- Uppercasing a letter never yields a whitespace character. -/
theorem not_space_upperChar (c : Char) (h : isAlphaChar c = true) :
    isSpaceChar (upperChar c) = false := by
  simp only [isAlphaChar, Bool.or_eq_true, Bool.and_eq_true,
    decide_eq_true_eq] at h
  have h65 : 65 ≤ (upperChar c).toNat := by
    unfold upperChar
    by_cases hlow : ('a' ≤ c && c ≤ 'z') = true
    · rw [if_pos hlow]
      simp only [Bool.and_eq_true, decide_eq_true_eq] at hlow
      have hn1 : 97 ≤ c.toNat := hlow.1
      have hn2 : c.toNat ≤ 122 := hlow.2
      have hv : (c.toNat - 32).isValidChar := Or.inl (by omega)
      rw [toNat_ofNat_valid _ hv]
      omega
    · rw [if_neg hlow]
      rcases h with ⟨h1, _⟩ | ⟨h1, h2⟩
      · exact h1
      · exact absurd (by simp [h1, h2] :
          (('a' ≤ c : Bool) && (c ≤ 'z' : Bool)) = true) hlow
  apply Bool.eq_false_iff.mpr
  intro hsp
  simp only [isSpaceChar, Bool.or_eq_true, decide_eq_true_eq] at hsp
  rcases hsp with ((((h' | h') | h') | h') | h') | h' <;> rw [h'] at h65 <;>
    exact absurd h65 (by decide)

/-- C4 (amended): `B*44:02NMA` is not a valid allele string (the claim's
example input is rejected by the grammar); the valid form is `B*44:NMA`.
For every successfully parsed allele whose final colon-delimited field is
purely alphabetic of length at least 2, that field (uppercased) is the MAC
code, no suffix is extracted, `has_mac_code` holds, and `is_mid_resolution`
holds whenever `field_count = 2`. -/
theorem mac_final_field (s : String) (a : HlaAllele) (lf : List Char)
    (h : from_string s = .ok a)
    (hlf : (splitOnColon a.specificity.data).getLast? = some lf)
    (hlen : 2 ≤ lf.length) (halpha : lf.all isAlphaChar = true) :
    a.mac_code = some (String.mk (pyUpper lf)) ∧ a.suffix = none ∧
      a.has_mac_code = true ∧
      (a.field_count = 2 → a.is_mid_resolution = true) := by
  obtain ⟨-, hmac, hsuf, -, -⟩ := from_string_ok s a h
  have hne : lf ≠ [] := by
    intro hnil
    rw [hnil] at hlen
    exact absurd hlen (by decide)
  have hpia : pyIsAlpha lf = true := by
    obtain ⟨c, t, rfl⟩ := List.exists_cons_of_ne_nil hne
    simp only [pyIsAlpha, List.isEmpty_cons, Bool.not_false, Bool.true_and]
    exact halpha
  have hmaceq : a.mac_code = some (String.mk (pyUpper lf)) := by
    rw [hmac]
    unfold get_mac_code
    rw [hlf]
    simp only [Option.getD_some]
    rw [if_pos (by simp [hlen, hpia])]
  have hsufeq : a.suffix = none := by
    rw [hsuf]
    unfold get_suffix
    rw [hlf]
    simp only [Option.getD_some]
    cases hgl : lf.getLast? with
    | none => rfl
    | some x =>
      simp [hpia]
  have hmacb : a.has_mac_code = true := by
    unfold HlaAllele.has_mac_code
    rw [hmaceq]
    obtain ⟨c, t, rfl⟩ := List.exists_cons_of_ne_nil hne
    have hc : isAlphaChar c = true := by
      simp only [List.all_cons, Bool.and_eq_true] at halpha
      exact halpha.1
    simp only [is_blank, pyUpper, List.map_cons]
    simp [not_space_upperChar c hc]
  refine ⟨hmaceq, hsufeq, hmacb, ?_⟩
  intro hfc
  unfold HlaAllele.is_mid_resolution
  rw [hfc, hmacb]
  rfl

/-- C4 counterexample: the claim's example input `B*44:02NMA` does not
parse (its specificity fails the grammar), and `is_valid_allele` agrees. -/
theorem from_string_claim_example_fails :
    from_string "B*44:02NMA" = .error "Invalid specificity" ∧
      is_valid_allele "B*44:02NMA" = false :=
  ⟨rfl, by decide⟩

/-- C4 witness: `B*44:NMA` parses with MAC code `NMA` and is
mid-resolution. -/
theorem mac_final_field_witness :
    from_string "B*44:NMA" = .ok ⟨.B, "44:NMA", 2, some "NMA", 2, none⟩ ∧
    (splitOnColon ("44:NMA".data)).getLast? = some ['N', 'M', 'A'] ∧
    (⟨.B, "44:NMA", 2, some "NMA", 2, none⟩ : HlaAllele).mac_code =
      some (String.mk (pyUpper ['N', 'M', 'A'])) ∧
    (⟨.B, "44:NMA", 2, some "NMA", 2, none⟩ : HlaAllele).suffix = none ∧
    (⟨.B, "44:NMA", 2, some "NMA", 2, none⟩ : HlaAllele).has_mac_code = true ∧
    (⟨.B, "44:NMA", 2, some "NMA", 2, none⟩ : HlaAllele).is_mid_resolution =
      true := by
  have h := mac_final_field "B*44:NMA" ⟨.B, "44:NMA", 2, some "NMA", 2, none⟩
    ['N', 'M', 'A'] rfl rfl (by decide) (by decide)
  exact ⟨rfl, rfl, h.1, h.2.1, h.2.2.1, h.2.2.2 rfl⟩

/-! ### Claim C5 -/

theorem mem_dropWhile (p : Char → Bool) (l : List Char) (c : Char)
    (hc : c ∈ l) (hp : p c = false) : c ∈ l.dropWhile p := by
  induction l with
  | nil => simp at hc
  | cons x t ih =>
    rw [List.dropWhile_cons]
    by_cases hx : p x = true
    · rw [if_pos hx]
      rcases List.mem_cons.mp hc with rfl | hmem
      · rw [hp] at hx; exact absurd hx (by simp)
      · exact ih hmem
    · rw [if_neg hx]
      exact hc

theorem mem_pyStrip (l : List Char) (c : Char) (hc : c ∈ l)
    (hp : isSpaceChar c = false) : c ∈ pyStrip l := by
  unfold pyStrip
  rw [List.mem_reverse]
  refine mem_dropWhile _ _ _ ?_ hp
  rw [List.mem_reverse]
  exact mem_dropWhile _ _ _ hc hp

theorem star_mem_pyUpper (l : List Char) (h : '*' ∈ l) :
    '*' ∈ pyUpper l := by
  have hm := List.mem_map_of_mem upperChar h
  rw [show upperChar '*' = '*' from rfl] at hm
  exact hm

/-- A string containing a `*` can never normalize to a bare marker. -/
theorem star_not_marker (u : List Char) (hmem : '*' ∈ u) :
    (negativeSpecificities.contains (String.mk (pyUpper (pyStrip u)))
      || missingSpecificities.contains
        (String.mk (pyUpper (pyStrip u)))) = false := by
  have hstar : '*' ∈ pyUpper (pyStrip u) :=
    star_mem_pyUpper _ (mem_pyStrip u '*' hmem (by decide))
  have key : ∀ m : String, String.mk (pyUpper (pyStrip u)) = m →
      '*' ∉ m.data → False := by
    intro m hm hnm
    apply hnm
    have hd : (String.mk (pyUpper (pyStrip u))).data = m.data :=
      congrArg String.data hm
    rw [← hd]
    exact hstar
  apply Bool.eq_false_iff.mpr
  intro hcon
  rcases Bool.or_eq_true_iff.mp hcon with hc | hc
  all_goals
    have hmem2 := List.mem_of_elem_eq_true hc
    simp only [negativeSpecificities, missingSpecificities, List.mem_cons,
      List.mem_singleton, List.not_mem_nil, or_false] at hmem2
  · rcases hmem2 with hm | hm <;> exact key _ hm (by decide)
  · rcases hmem2 with hm | hm <;> exact key _ hm (by decide)

theorem splitStar_append (l1 l2 : List Char) (h : '*' ∉ l1) :
    splitStar (l1 ++ '*' :: l2) = (l1, l2) := by
  induction l1 with
  | nil => simp [splitStar]
  | cons c t ih =>
    have hc : ¬c = '*' := fun hh => h (hh ▸ List.mem_cons_self c t)
    have ht := ih (fun hm => h (List.mem_cons_of_mem c hm))
    simp only [List.cons_append, splitStar, if_neg hc, List.append_eq]
    rw [ht]

theorem token_no_star (l : HlaLocus) : '*' ∉ l.token.data := by
  cases l <;> decide

theorem parse_locus_token (l : HlaLocus) :
    parse_locus (String.mk l.token.data) = .ok l := by
  cases l <;> rfl

/-- C5: parsing the canonical string of any successfully parsed allele
yields that same allele (round-trip of `from_string` and `__str__`). -/
theorem from_string_round_trip (s : String) (a : HlaAllele)
    (h : from_string s = .ok a) : from_string (alleleStr a) = .ok a := by
  obtain ⟨hfc, hmac, hsuf, hdisp, hval⟩ := from_string_ok s a h
  have hdata : (alleleStr a).data =
      a.locus.token.data ++ '*' :: a.specificity.data := by
    simp [alleleStr, String.data_append]
  have hmem : '*' ∈ (alleleStr a).data := by
    rw [hdata]; simp
  have hcont : (alleleStr a).data.contains '*' = true :=
    List.elem_eq_true_of_mem hmem
  have hsplit : splitStar (alleleStr a).data =
      (a.locus.token.data, a.specificity.data) := by
    rw [hdata]
    exact splitStar_append _ _ (token_no_star a.locus)
  have hep : extract_parts (alleleStr a) =
      .ok (a.locus.token, a.specificity) := by
    simp only [extract_parts]
    rw [star_not_marker _ hmem]
    simp only [Bool.false_eq_true, if_false, hcont, if_true, hsplit, mk_data]
  unfold from_string
  simp only [hep]
  simp only [show parse_locus a.locus.token = .ok a.locus from by
    have := parse_locus_token a.locus
    rwa [mk_data] at this]
  unfold mkAllele
  rw [if_pos hval, ← hfc, ← hmac, ← hsuf, ← hdisp]

/-- C5 witness: the round trip at `A*01:01`. -/
theorem from_string_round_trip_witness :
    from_string "A*01:01" = .ok ⟨.A, "01:01", 2, none, 2, none⟩ ∧
    from_string (alleleStr ⟨.A, "01:01", 2, none, 2, none⟩) =
      .ok ⟨.A, "01:01", 2, none, 2, none⟩ :=
  ⟨rfl, from_string_round_trip "A*01:01" _ rfl⟩

/-! ### Claim C6 -/

/-- C6: `contains` holds exactly when neither allele carries a MAC code and
the argument's canonical string is a literal prefix of the receiver's; the
claim's concrete instances follow, and a MAC-coded operand forces `false`
even on a prefix match. -/
theorem contains_characterization :
    (∀ a b : HlaAllele, a.contains b = true ↔
      (a.has_mac_code = false ∧ b.has_mac_code = false ∧
        (alleleStr b).data <+: (alleleStr a).data)) ∧
    (⟨.A, "01:01", 2, none, 2, none⟩ : HlaAllele).contains
      ⟨.A, "01", 1, none, 2, none⟩ = true ∧
    (⟨.A, "01", 1, none, 2, none⟩ : HlaAllele).contains
      ⟨.A, "01:01", 2, none, 2, none⟩ = false ∧
    from_string "A*01:01" = .ok ⟨.A, "01:01", 2, none, 2, none⟩ ∧
    from_string "A*01" = .ok ⟨.A, "01", 1, none, 2, none⟩ ∧
    (⟨.B, "44:NMA", 2, some "NMA", 2, none⟩ : HlaAllele).contains
      ⟨.B, "44", 1, none, 2, none⟩ = false ∧
    startswith (alleleStr ⟨.B, "44:NMA", 2, some "NMA", 2, none⟩)
      (alleleStr ⟨.B, "44", 1, none, 2, none⟩) = true := by
  refine ⟨?_, by decide, by decide, rfl, rfl, by decide, by decide⟩
  intro a b
  unfold HlaAllele.contains
  by_cases hmac : (a.has_mac_code || b.has_mac_code) = true
  · rw [if_pos hmac]
    simp only [Bool.or_eq_true] at hmac
    constructor
    · intro hf; exact absurd hf (by simp)
    · rintro ⟨h1, h2, -⟩
      rcases hmac with hm | hm
      · rw [h1] at hm; exact absurd hm (by simp)
      · rw [h2] at hm; exact absurd hm (by simp)
  · rw [if_neg hmac]
    simp only [Bool.or_eq_true, not_or] at hmac
    unfold startswith
    rw [List.isPrefixOf_iff_prefix]
    constructor
    · intro hp
      exact ⟨Bool.eq_false_iff.mpr hmac.1, Bool.eq_false_iff.mpr hmac.2, hp⟩
    · rintro ⟨-, -, hp⟩
      exact hp

/-! ### Claim C7 -/

/-- C7: when the single DRB345 slot holds an allele, a family lookup with
`exact = false` returns it for any requested DRB-family locus, and with
`exact = true` only when the stored allele's own locus equals the requested
one. -/
theorem get_family_lookup (h : HlaHaplotype) (cand : HlaAllele)
    (l : HlaLocus) (hstored : findAllele h.allele_map .DRB345 = some cand)
    (hfam : l.is_drb345 = true) :
    h.get l false = some cand ∧
      h.get l true = (if cand.locus = l then some cand else none) := by
  unfold HlaHaplotype.get
  rw [hfam]
  simp only [if_true, hstored]
  constructor
  · simp
  · by_cases hc : cand.locus = l
    · simp [hc]
    · simp [hc]

/-- C7 witness: the haplotype built from `A*01:01+DRB3*01:01` at requested
locus DRB4. -/
theorem get_family_lookup_witness :
    HlaHaplotype.createS "A*01:01+DRB3*01:01" =
      .ok ⟨[(.A, ⟨.A, "01:01", 2, none, 2, none⟩),
            (.DRB345, ⟨.DRB3, "01:01", 2, none, 2, none⟩)]⟩ ∧
    findAllele (HlaHaplotype.mk [(.A, ⟨.A, "01:01", 2, none, 2, none⟩),
        (.DRB345, ⟨.DRB3, "01:01", 2, none, 2, none⟩)]).allele_map .DRB345 =
      some ⟨.DRB3, "01:01", 2, none, 2, none⟩ ∧
    HlaLocus.is_drb345 .DRB4 = true ∧
    (HlaHaplotype.mk [(.A, ⟨.A, "01:01", 2, none, 2, none⟩),
        (.DRB345, ⟨.DRB3, "01:01", 2, none, 2, none⟩)]).get .DRB4 false =
      some ⟨.DRB3, "01:01", 2, none, 2, none⟩ ∧
    (HlaHaplotype.mk [(.A, ⟨.A, "01:01", 2, none, 2, none⟩),
        (.DRB345, ⟨.DRB3, "01:01", 2, none, 2, none⟩)]).get .DRB4 true =
      none := by
  have h := get_family_lookup
    (HlaHaplotype.mk [(.A, ⟨.A, "01:01", 2, none, 2, none⟩),
      (.DRB345, ⟨.DRB3, "01:01", 2, none, 2, none⟩)])
    ⟨.DRB3, "01:01", 2, none, 2, none⟩ .DRB4 rfl rfl
  refine ⟨rfl, rfl, rfl, h.1, ?_⟩
  rw [h.2]
  simp

/-! ### Claim C8 -/

/-- Python dict update, observed through lookup. -/
theorem findAllele_mapInsert (m : List (HlaLocus × HlaAllele))
    (k : HlaLocus) (v : HlaAllele) (k' : HlaLocus) :
    findAllele (mapInsert m k v) k' =
      if k' = k then some v else findAllele m k' := by
  induction m with
  | nil =>
    by_cases hk : k' = k
    · simp [mapInsert, findAllele, hk]
    · have hkk : ¬k = k' := fun hh => hk (Eq.symm hh)
      simp [mapInsert, findAllele, hk, hkk]
  | cons p t ih =>
    by_cases hp : p.1 = k
    · by_cases hk : k' = k
      · subst hk
        simp [mapInsert, findAllele, hp]
      · have hkk : ¬k = k' := fun hh => hk (Eq.symm hh)
        simp [mapInsert, findAllele, hp, hk, hkk]
    · by_cases hpk : p.1 = k'
      · have hk : ¬k' = k := fun hh => hp (hpk.trans hh)
        simp [mapInsert, findAllele, hp, hpk, hk]
      · simp [mapInsert, findAllele, hp, hpk, ih]

/-- C8: `set` stores the allele at the normalized key when the normalized
keys of the locus and of the allele's own locus agree (leaving every other
key's lookup unchanged), and returns the receiver unchanged when they
disagree. -/
theorem set_characterization (h : HlaHaplotype) (l : HlaLocus)
    (a : HlaAllele) :
    (normalize_locus l = normalize_locus a.locus →
      ∀ k, findAllele (h.set l a).allele_map k =
        if k = normalize_locus l then some a
        else findAllele h.allele_map k) ∧
    (normalize_locus l ≠ normalize_locus a.locus → h.set l a = h) := by
  constructor
  · intro heq k
    unfold HlaHaplotype.set
    rw [if_pos heq]
    exact findAllele_mapInsert h.allele_map (normalize_locus l) a k
  · intro hne
    unfold HlaHaplotype.set
    rw [if_neg hne]

/-- C8 witness: storing at a matching locus and a mismatched locus. -/
theorem set_characterization_witness :
    normalize_locus .A =
      normalize_locus (⟨.A, "01", 1, none, 2, none⟩ : HlaAllele).locus ∧
    findAllele ((HlaHaplotype.mk [(.B, ⟨.B, "08", 1, none, 2, none⟩)]).set .A
        ⟨.A, "01", 1, none, 2, none⟩).allele_map .A =
      (if (HlaLocus.A : HlaLocus) = normalize_locus .A
        then some ⟨.A, "01", 1, none, 2, none⟩
        else findAllele
          (HlaHaplotype.mk [(.B, ⟨.B, "08", 1, none, 2, none⟩)]).allele_map
          .A) ∧
    normalize_locus .B ≠
      normalize_locus (⟨.A, "01", 1, none, 2, none⟩ : HlaAllele).locus ∧
    (HlaHaplotype.mk [(.B, ⟨.B, "08", 1, none, 2, none⟩)]).set .B
      ⟨.A, "01", 1, none, 2, none⟩ =
      HlaHaplotype.mk [(.B, ⟨.B, "08", 1, none, 2, none⟩)] :=
  ⟨rfl,
    (set_characterization (HlaHaplotype.mk
      [(.B, ⟨.B, "08", 1, none, 2, none⟩)]) .A
      ⟨.A, "01", 1, none, 2, none⟩).1 rfl .A,
    by decide,
    (set_characterization (HlaHaplotype.mk
      [(.B, ⟨.B, "08", 1, none, 2, none⟩)]) .B
      ⟨.A, "01", 1, none, 2, none⟩).2 (by decide)⟩

/-! ### Claim C9 -/

/-- Non-exact lookup reads the normalized key directly. -/
theorem get_false_eq (h : HlaHaplotype) (l : HlaLocus) :
    h.get l false = findAllele h.allele_map (normalize_locus l) := by
  unfold HlaHaplotype.get normalize_locus
  by_cases hf : l.is_drb345 = true
  · rw [hf]
    simp only [if_true]
    cases hfind : findAllele h.allele_map .DRB345 with
    | none => simp
    | some c => simp
  · simp [hf]

theorem findAllele_mem (m : List (HlaLocus × HlaAllele)) (k : HlaLocus)
    (v : HlaAllele) (h : findAllele m k = some v) : (k, v) ∈ m := by
  induction m with
  | nil => simp [findAllele] at h
  | cons p t ih =>
    simp only [findAllele] at h
    by_cases hp : p.1 = k
    · rw [if_pos hp] at h
      injection h with h
      obtain ⟨p1, p2⟩ := p
      simp only at hp h
      subst hp
      subst h
      exact List.mem_cons_self _ _
    · rw [if_neg hp] at h
      exact List.mem_cons_of_mem p (ih h)

theorem mapInsert_not_mem (m : List (HlaLocus × HlaAllele)) (k : HlaLocus)
    (v : HlaAllele) (h : ∀ q ∈ m, ¬q.1 = k) :
    mapInsert m k v = m ++ [(k, v)] := by
  induction m with
  | nil => rfl
  | cons p t ih =>
    have hp : ¬p.1 = k := h p (List.mem_cons_self p t)
    simp only [mapInsert, if_neg hp, List.cons_append]
    rw [ih (fun q hq => h q (List.mem_cons_of_mem p hq))]

theorem clone_aux (l : List (HlaLocus × HlaAllele)) :
    ∀ acc : List (HlaLocus × HlaAllele),
      (∀ p ∈ l, p.1 = normalize_locus p.2.locus) →
      l.Pairwise (fun p q => p.1 ≠ q.1) →
      (∀ p ∈ l, ∀ q ∈ acc, ¬q.1 = p.1) →
      (l.map (·.2)).foldl
        (fun m a => mapInsert m (normalize_locus a.locus) a) acc =
        acc ++ l := by
  induction l with
  | nil => intro acc _ _ _; simp
  | cons p t ih =>
    intro acc hkeys hpw hdisj
    simp only [List.map_cons, List.foldl_cons]
    have hp1 : normalize_locus p.2.locus = p.1 :=
      (hkeys p (List.mem_cons_self p t)).symm
    rw [hp1]
    rw [mapInsert_not_mem acc p.1 p.2
      (fun q hq => hdisj p (List.mem_cons_self p t) q hq)]
    have hpe : acc ++ [(p.1, p.2)] = acc ++ [p] := by simp
    rw [hpe]
    rw [ih (acc ++ [p]) (fun q hq => hkeys q (List.mem_cons_of_mem p hq))
      (List.pairwise_cons.mp hpw).2
      (fun q hq r hr => by
        rcases List.mem_append.mp hr with hr' | hr'
        · exact hdisj q (List.mem_cons_of_mem p hq) r hr'
        · rw [List.mem_singleton] at hr'
          subst hr'
          exact (List.pairwise_cons.mp hpw).1 q hq)]
    simp

/-- Under the representation invariant, `clone` rebuilds the same value. -/
theorem clone_eq (h : HlaHaplotype) (w : HapWF h) : h.clone = h := by
  obtain ⟨hk, hpw⟩ := w
  unfold HlaHaplotype.clone ofAlleles HlaHaplotype.alleles
  rw [clone_aux h.allele_map [] hk hpw
    (fun p _ q hq => absurd hq (List.not_mem_nil q))]
  rfl

/-- C9: `swap` leaves both sides unchanged when either lacks an allele at
the locus, and otherwise exchanges exactly the two alleles stored at the
normalized locus, leaving every other key's lookup unchanged. -/
theorem swap_characterization (h1 h2 : HlaHaplotype) (l : HlaLocus)
    (w1 : HapWF h1) (w2 : HapWF h2) :
    ((h1.get l false = none ∨ h2.get l false = none) →
      h1.swap h2 l = (h1, h2)) ∧
    (∀ a1 a2, h1.get l false = some a1 → h2.get l false = some a2 →
      ∀ k, findAllele (h1.swap h2 l).1.allele_map k =
          (if k = normalize_locus l then some a2
            else findAllele h1.allele_map k) ∧
        findAllele (h1.swap h2 l).2.allele_map k =
          (if k = normalize_locus l then some a1
            else findAllele h2.allele_map k)) := by
  have hc1 := clone_eq h1 w1
  have hc2 := clone_eq h2 w2
  constructor
  · intro hnone
    unfold HlaHaplotype.swap
    simp only [hc1, hc2]
    cases hA : h1.get l false with
    | none => cases hB : h2.get l false <;> rfl
    | some a1 =>
      cases hB : h2.get l false with
      | none => rfl
      | some a2 =>
        rcases hnone with hn | hn
        · rw [hA] at hn; exact absurd hn (by simp)
        · rw [hB] at hn; exact absurd hn (by simp)
  · intro a1 a2 hg1 hg2 k
    unfold HlaHaplotype.swap
    simp only [hc1, hc2, hg1, hg2]
    have hm2 : (normalize_locus l, a2) ∈ h2.allele_map :=
      findAllele_mem _ _ _ (by rw [← get_false_eq]; exact hg2)
    have heq2 : normalize_locus l = normalize_locus a2.locus := w2.1 _ hm2
    have hm1 : (normalize_locus l, a1) ∈ h1.allele_map :=
      findAllele_mem _ _ _ (by rw [← get_false_eq]; exact hg1)
    have heq1 : normalize_locus l = normalize_locus a1.locus := w1.1 _ hm1
    constructor
    · unfold HlaHaplotype.set
      rw [if_pos heq2]
      exact findAllele_mapInsert _ _ _ _
    · unfold HlaHaplotype.set
      rw [if_pos heq1]
      exact findAllele_mapInsert _ _ _ _

/-- C9 witness: two single-entry haplotypes — swapping at B (absent on
both) returns them unchanged, and swapping at A exchanges the two
alleles. -/
theorem swap_characterization_witness :
    HapWF (HlaHaplotype.mk [(.A, ⟨.A, "01", 1, none, 2, none⟩)]) ∧
    HapWF (HlaHaplotype.mk [(.A, ⟨.A, "02", 1, none, 2, none⟩)]) ∧
    (HlaHaplotype.mk [(.A, ⟨.A, "01", 1, none, 2, none⟩)]).get .B false =
      none ∧
    (HlaHaplotype.mk [(.A, ⟨.A, "01", 1, none, 2, none⟩)]).swap
        (HlaHaplotype.mk [(.A, ⟨.A, "02", 1, none, 2, none⟩)]) .B =
      (HlaHaplotype.mk [(.A, ⟨.A, "01", 1, none, 2, none⟩)],
        HlaHaplotype.mk [(.A, ⟨.A, "02", 1, none, 2, none⟩)]) ∧
    findAllele ((HlaHaplotype.mk [(.A, ⟨.A, "01", 1, none, 2, none⟩)]).swap
        (HlaHaplotype.mk [(.A, ⟨.A, "02", 1, none, 2, none⟩)]) .A).1.allele_map
        .A =
      (if (HlaLocus.A : HlaLocus) = normalize_locus .A
        then some ⟨.A, "02", 1, none, 2, none⟩
        else findAllele
          (HlaHaplotype.mk [(.A, ⟨.A, "01", 1, none, 2, none⟩)]).allele_map
          .A) ∧
    findAllele ((HlaHaplotype.mk [(.A, ⟨.A, "01", 1, none, 2, none⟩)]).swap
        (HlaHaplotype.mk [(.A, ⟨.A, "02", 1, none, 2, none⟩)]) .A).2.allele_map
        .A =
      (if (HlaLocus.A : HlaLocus) = normalize_locus .A
        then some ⟨.A, "01", 1, none, 2, none⟩
        else findAllele
          (HlaHaplotype.mk [(.A, ⟨.A, "02", 1, none, 2, none⟩)]).allele_map
          .A) := by
  have w1 : HapWF (HlaHaplotype.mk [(.A, ⟨.A, "01", 1, none, 2, none⟩)]) := by
    constructor
    · intro p hp
      rw [List.mem_singleton] at hp
      subst hp
      rfl
    · exact List.pairwise_singleton _ _
  have w2 : HapWF (HlaHaplotype.mk [(.A, ⟨.A, "02", 1, none, 2, none⟩)]) := by
    constructor
    · intro p hp
      rw [List.mem_singleton] at hp
      subst hp
      rfl
    · exact List.pairwise_singleton _ _
  refine ⟨w1, w2, rfl, ?_, ?_, ?_⟩
  · exact (swap_characterization
      (HlaHaplotype.mk [(.A, ⟨.A, "01", 1, none, 2, none⟩)])
      (HlaHaplotype.mk [(.A, ⟨.A, "02", 1, none, 2, none⟩)]) .B w1 w2).1
      (Or.inl rfl)
  · exact ((swap_characterization
      (HlaHaplotype.mk [(.A, ⟨.A, "01", 1, none, 2, none⟩)])
      (HlaHaplotype.mk [(.A, ⟨.A, "02", 1, none, 2, none⟩)]) .A w1 w2).2
      ⟨.A, "01", 1, none, 2, none⟩ ⟨.A, "02", 1, none, 2, none⟩ rfl rfl .A).1
  · exact ((swap_characterization
      (HlaHaplotype.mk [(.A, ⟨.A, "01", 1, none, 2, none⟩)])
      (HlaHaplotype.mk [(.A, ⟨.A, "02", 1, none, 2, none⟩)]) .A w1 w2).2
      ⟨.A, "01", 1, none, 2, none⟩ ⟨.A, "02", 1, none, 2, none⟩ rfl rfl .A).2

/-! ### Claim C10 -/

theorem from_value_some (t : String) (l : HlaLocus)
    (hv : HlaLocus.from_value t = some l) : t = l.token := by
  have h := List.find?_some hv
  simp only [beq_iff_eq] at h
  exact h.symm

theorem coerce_locus_unknown (t : String)
    (hnone : ∀ l : HlaLocus, ¬l.token = t) :
    coerce_locus t = .error ("Unknown locus: " ++ t) := by
  unfold coerce_locus
  cases hv : HlaLocus.from_value t with
  | none => rfl
  | some l => exact absurd (from_value_some t l hv).symm (hnone l)

/-- C10: for a locus string that is none of the twelve canonical tokens,
haplotype `get`, `has` and `set` all surface the unknown-locus error (they
do not return an absent value or an unchanged haplotype), even though
allele parsing accepts the alias `B3`. -/
theorem unknown_locus_errors (h : HlaHaplotype) (t : String) (e : Bool)
    (a : HlaAllele) (hnone : ∀ l : HlaLocus, ¬l.token = t) :
    h.getS t e = .error ("Unknown locus: " ++ t) ∧
      h.hasS t e = .error ("Unknown locus: " ++ t) ∧
      h.setS t a = .error ("Unknown locus: " ++ t) ∧
      parse_locus "B3" = .ok .DRB3 := by
  have hcl := coerce_locus_unknown t hnone
  refine ⟨?_, ?_, ?_, rfl⟩ <;>
    simp [HlaHaplotype.getS, HlaHaplotype.hasS, HlaHaplotype.setS, hcl]

/-- C10 witness: the alias token `B3` is rejected by haplotype lookup. -/
theorem unknown_locus_errors_witness :
    (∀ l : HlaLocus, ¬l.token = "B3") ∧
    (HlaHaplotype.mk []).getS "B3" false =
      .error ("Unknown locus: " ++ "B3") ∧
    (HlaHaplotype.mk []).hasS "B3" false =
      .error ("Unknown locus: " ++ "B3") ∧
    (HlaHaplotype.mk []).setS "B3" ⟨.A, "01", 1, none, 2, none⟩ =
      .error ("Unknown locus: " ++ "B3") := by
  have hnone : ∀ l : HlaLocus, ¬l.token = "B3" := by
    intro l; cases l <;> decide
  have h := unknown_locus_errors (HlaHaplotype.mk []) "B3" false
    ⟨.A, "01", 1, none, 2, none⟩ hnone
  exact ⟨hnone, h.1, h.2.1, h.2.2.1⟩
